import Mathlib

/-!
Verification development for the keyword-based multi-document retrieval
backend (retrieval.py, ingest.py, paper_search.py, database.py).

Strings are modelled as `List Char`; Python `str.lower()` as `List.map
Char.toLower`; `str.split()` as whitespace tokenisation; Python `set`s of
words as `Finset (List Char)`; the stable `list.sort(reverse=True, key=...)`
as a stable descending insertion sort (stable sorts over the same key order
have a unique output, proved below via the permutation / sortedness /
stability-characterisation theorems).
-/

namespace Adhayayan

/-- ASCII whitespace, as recognised by Python `str.split()` / `str.strip()`
and the regex class `\s`. -/
def isSpace (c : Char) : Bool :=
  c = ' ' || c = '\t' || c = '\n' || c = '\r' || c = '\x0b' || c = '\x0c'

/-- Python `str.lower()` on a character list. -/
def lowerL (l : List Char) : List Char := l.map Char.toLower

/-- Accumulator-based whitespace tokeniser: `cur` holds the (reversed)
current partial token. -/
def tokensAux : List Char → List Char → List (List Char)
  | [], cur => if cur.isEmpty then [] else [cur.reverse]
  | c :: cs, cur =>
    if isSpace c then
      if cur.isEmpty then tokensAux cs [] else cur.reverse :: tokensAux cs []
    else tokensAux cs (c :: cur)

/-- Python `str.split()`: split on runs of whitespace, dropping empty
pieces. -/
def tokens (l : List Char) : List (List Char) := tokensAux l []

/-- A page chunk as produced by `extract_text_from_pdf` in retrieval.py:
`{"text": ..., "page": ..., "source": ...}`. -/
structure Chunk where
  text : List Char
  page : Nat
  source : List Char
deriving DecidableEq, Inhabited

/-- The per-chunk score computed inside `simple_keyword_search`
(retrieval.py lines 36-48): `overlap = len(query_words & text_words)`,
then `overlap += 10` when `query_lower in text_lower`. -/
def score (query : List Char) (c : Chunk) : Nat :=
  let query_lower := lowerL query
  let query_words := (tokens query_lower).toFinset
  let text_lower := lowerL c.text
  let text_words := (tokens text_lower).toFinset
  let overlap := (query_words ∩ text_words).card
  if query_lower <:+: text_lower then overlap + 10 else overlap

/-- Insert a scored element into a descending-sorted list, in front of the
first element with a smaller-or-equal key (so that, used right-to-left,
earlier input elements precede equal-keyed later ones: stability). -/
def insertDesc (x : Nat × α) : List (Nat × α) → List (Nat × α)
  | [] => [x]
  | q :: qs => if q.1 ≤ x.1 then x :: q :: qs else q :: insertDesc x qs

/-- Stable descending sort by the first component: the model of Python's
stable `list.sort(reverse=True, key=lambda x: x[0])`. -/
def sortDesc : List (Nat × α) → List (Nat × α)
  | [] => []
  | x :: l => insertDesc x (sortDesc l)

/-- Model of `simple_keyword_search` (retrieval.py lines 27-52): score every chunk,
keep the strictly positive ones, sort stably by score descending, return
the chunks of the first `top_k` entries. -/
def simple_keyword_search (query : List Char) (chunks : List Chunk)
    (top_k : Nat) : List Chunk :=
  let scored_chunks := (chunks.map (fun c => (score query c, c))).filter
    (fun p => 0 < p.1)
  let sorted := sortDesc scored_chunks
  (sorted.take top_k).map (fun p => p.2)

/-- The sentinel chunk returned by `retrieve_from_multiple_pdfs` when no
PDF yielded any content (retrieval.py lines 73-78). -/
def sentinelChunk : Chunk :=
  { text := "No document content available.".toList
    page := 0
    source := "System".toList }

/-- Model of `retrieve_from_multiple_pdfs` (retrieval.py lines 54-87), parameterised
by the per-PDF extraction results (the `extract_text_from_pdf` calls are
file I/O; their outputs are taken as input here). -/
def retrieve_from_multiple_pdfs (query : List Char)
    (extracted : List (List Chunk)) (top_k : Nat) : List Chunk :=
  let all_chunks := extracted.flatten
  if all_chunks.isEmpty then [sentinelChunk]
  else
    let relevant_chunks := simple_keyword_search query all_chunks top_k
    if relevant_chunks.isEmpty then all_chunks.take top_k
    else relevant_chunks

/-! ### Properties of the stable descending sort -/

theorem insertDesc_perm (x : Nat × α) (l : List (Nat × α)) :
    List.Perm (insertDesc x l) (x :: l) := by
  induction l with
  | nil => simp [insertDesc]
  | cons q qs ih =>
    simp only [insertDesc]
    split
    · exact List.Perm.refl _
    · exact (ih.cons q).trans (List.Perm.swap x q qs)

theorem sortDesc_perm (l : List (Nat × α)) : List.Perm (sortDesc l) l := by
  induction l with
  | nil => simp [sortDesc]
  | cons x xs ih =>
    exact (insertDesc_perm x (sortDesc xs)).trans (ih.cons x)

theorem mem_insertDesc {x y : Nat × α} {l : List (Nat × α)} :
    y ∈ insertDesc x l ↔ y = x ∨ y ∈ l := by
  rw [(insertDesc_perm x l).mem_iff, List.mem_cons]

theorem pairwise_insertDesc {x : Nat × α} {l : List (Nat × α)}
    (h : l.Pairwise (fun a b => b.1 ≤ a.1)) :
    (insertDesc x l).Pairwise (fun a b => b.1 ≤ a.1) := by
  induction l with
  | nil => simp [insertDesc]
  | cons q qs ih =>
    rw [List.pairwise_cons] at h
    simp only [insertDesc]
    split
    · rename_i hq
      refine List.pairwise_cons.mpr ⟨?_, List.pairwise_cons.mpr h⟩
      intro b hb
      rcases List.mem_cons.mp hb with rfl | hb
      · exact hq
      · exact le_trans (h.1 b hb) hq
    · rename_i hq
      refine List.pairwise_cons.mpr ⟨?_, ih h.2⟩
      intro b hb
      rcases mem_insertDesc.mp hb with rfl | hb
      · exact le_of_not_le hq
      · exact h.1 b hb

theorem sortDesc_pairwise (l : List (Nat × α)) :
    (sortDesc l).Pairwise (fun a b => b.1 ≤ a.1) := by
  induction l with
  | nil => simp [sortDesc]
  | cons x xs ih => exact pairwise_insertDesc ih

theorem filter_insertDesc (s : Nat) (x : Nat × α) (l : List (Nat × α)) :
    (insertDesc x l).filter (fun p => p.1 = s) =
      if x.1 = s then x :: l.filter (fun p => p.1 = s)
      else l.filter (fun p => p.1 = s) := by
  induction l with
  | nil => by_cases hx : x.1 = s <;> simp [insertDesc, List.filter_cons, hx]
  | cons q qs ih =>
    simp only [insertDesc]
    split
    · rename_i hq
      by_cases hx : x.1 = s <;> simp [List.filter_cons, hx]
    · rename_i hq
      have hq' : x.1 < q.1 := lt_of_not_le hq
      by_cases hx : x.1 = s
      · have hqs : ¬ q.1 = s := by omega
        simp [List.filter_cons, hx, hqs, ih]
      · by_cases hqs : q.1 = s <;> simp [List.filter_cons, hx, hqs, ih]

theorem sortDesc_filter (s : Nat) (l : List (Nat × α)) :
    (sortDesc l).filter (fun p => p.1 = s) = l.filter (fun p => p.1 = s) := by
  induction l with
  | nil => rfl
  | cons x xs ih =>
    by_cases hx : x.1 = s <;>
      simp [sortDesc, filter_insertDesc, List.filter_cons, hx, ih]

/-! ### Structure of the ranker -/

/-- The scored-and-retained list built by the loop of
`simple_keyword_search`: each chunk paired with its score, keeping only
strictly positive scores. -/
def scoredPos (q : List Char) (cs : List Chunk) : List (Nat × Chunk) :=
  (cs.map (fun c => (score q c, c))).filter (fun p => 0 < p.1)

theorem simple_keyword_search_eq (q : List Char) (cs : List Chunk) (k : Nat) :
    simple_keyword_search q cs k =
      ((sortDesc (scoredPos q cs)).take k).map (fun p => p.2) := rfl

theorem scoredPos_eq (q : List Char) (cs : List Chunk) :
    scoredPos q cs =
      (cs.filter (fun c => 0 < score q c)).map (fun c => (score q c, c)) := by
  unfold scoredPos
  rw [List.filter_map]
  rfl

theorem mem_scoredPos {q : List Char} {cs : List Chunk} {p : Nat × Chunk}
    (hp : p ∈ scoredPos q cs) :
    p.1 = score q p.2 ∧ 0 < p.1 ∧ p.2 ∈ cs := by
  unfold scoredPos at hp
  have h1 := List.mem_filter.mp hp
  obtain ⟨c, hc, hcp⟩ := List.mem_map.mp h1.1
  cases hcp
  exact ⟨rfl, of_decide_eq_true h1.2, hc⟩

theorem mem_take_sorted {q : List Char} {cs : List Chunk} {k : Nat}
    {p : Nat × Chunk} (hp : p ∈ (sortDesc (scoredPos q cs)).take k) :
    p.1 = score q p.2 ∧ 0 < p.1 ∧ p.2 ∈ cs :=
  mem_scoredPos ((sortDesc_perm _).mem_iff.mp (List.mem_of_mem_take hp))

/-- Distinct-shared-token count of the intersection of two token sets,
phrased as a filtered-deduplicated list length. -/
theorem card_inter_toFinset (A B : List (List Char)) :
    (A.toFinset ∩ B.toFinset).card = (A.dedup.filter (fun w => w ∈ B)).length := by
  have h1 : (A.dedup.filter (fun w => w ∈ B)).toFinset = A.toFinset ∩ B.toFinset := by
    ext x
    simp [List.mem_filter, List.mem_dedup]
  have h2 : (A.dedup.filter (fun w => w ∈ B)).Nodup := A.nodup_dedup.filter _
  rw [← h1, List.toFinset_card_of_nodup h2]

/-- Spec-side formulation of the overlap score: the number of distinct
tokens shared between the lowercased whitespace-split query and the
lowercased whitespace-split chunk text. -/
def specOverlap (query : List Char) (c : Chunk) : Nat :=
  ((tokens (lowerL query)).dedup.filter
    (fun w => w ∈ tokens (lowerL c.text))).length

/-- C1: for every query string and every chunk, the ranker's score of the
chunk equals the number of distinct tokens shared between the lowercased
whitespace-split query and the lowercased whitespace-split chunk text,
plus a bonus of 10 exactly when the lowercased query occurs as a
contiguous substring of the lowercased chunk text; and a chunk appears in
the ranker's output only if this score is strictly greater than 0. -/
theorem score_eq_spec_and_output_positive (q : List Char) (cs : List Chunk)
    (k : Nat) (c : Chunk) :
    score q c = specOverlap q c
        + (if lowerL q <:+: lowerL c.text then 10 else 0)
    ∧ (c ∈ simple_keyword_search q cs k → 0 < score q c) := by
  constructor
  · have hcard := card_inter_toFinset (tokens (lowerL q)) (tokens (lowerL c.text))
    simp only [score, specOverlap]
    rw [hcard]
    split <;> omega
  · intro hc
    rw [simple_keyword_search_eq] at hc
    obtain ⟨p, hp, hpc⟩ := List.mem_map.mp hc
    have h3 := mem_take_sorted hp
    rw [← hpc, ← h3.1]
    exact h3.2.1

/-- C2: for every query string, every chunk list, and every top_k, the
ranker returns a list of length at most top_k whose every element is an
element of the input chunk list, and no input chunk occurrence is
returned more than once (the output count of any chunk is at most its
input count). -/
theorem keyword_search_bounded_from_input (q : List Char) (cs : List Chunk)
    (k : Nat) :
    (simple_keyword_search q cs k).length ≤ k
    ∧ (∀ c ∈ simple_keyword_search q cs k, c ∈ cs)
    ∧ (∀ c : Chunk, (simple_keyword_search q cs k).count c ≤ cs.count c) := by
  refine ⟨?_, ?_, ?_⟩
  · rw [simple_keyword_search_eq, List.length_map, List.length_take]
    exact Nat.min_le_left _ _
  · intro c hc
    rw [simple_keyword_search_eq] at hc
    obtain ⟨p, hp, hpc⟩ := List.mem_map.mp hc
    rw [← hpc]
    exact (mem_take_sorted hp).2.2
  · intro c
    rw [simple_keyword_search_eq]
    have h1 : List.Sublist
        (((sortDesc (scoredPos q cs)).take k).map (fun p => p.2))
        ((sortDesc (scoredPos q cs)).map (fun p => p.2)) :=
      (List.take_sublist k _).map _
    refine le_trans (h1.count_le c) ?_
    have h2 : ((sortDesc (scoredPos q cs)).map (fun p => p.2)).count c
        = ((scoredPos q cs).map (fun p => p.2)).count c :=
      ((sortDesc_perm _).map _).count_eq c
    rw [h2, scoredPos_eq, List.map_map]
    have h3 : (cs.filter (fun c => 0 < score q c)).map
        ((fun p : Nat × Chunk => p.2) ∘ (fun c => (score q c, c)))
        = cs.filter (fun c => 0 < score q c) := List.map_id _
    rw [h3]
    exact (List.filter_sublist cs).count_le c

/-- C3: the ranker's output is sorted by score in descending order, and
for every score value the output's chunks of that score form an initial
segment (in input order) of the retained input chunks of that score: the
sort is stable, equal-score chunks keep their relative input order and no
other tie-break is applied. -/
theorem keyword_search_sorted_stable (q : List Char) (cs : List Chunk)
    (k : Nat) :
    (simple_keyword_search q cs k).Pairwise
        (fun a b => score q b ≤ score q a)
    ∧ ∀ s : Nat, ∃ rest,
        (cs.filter (fun c => 0 < score q c)).filter (fun c => score q c = s)
          = (simple_keyword_search q cs k).filter (fun c => score q c = s)
              ++ rest := by
  constructor
  · rw [simple_keyword_search_eq]
    rw [List.pairwise_map]
    have h1 : ((sortDesc (scoredPos q cs)).take k).Pairwise
        (fun a b => b.1 ≤ a.1) :=
      (sortDesc_pairwise _).sublist (List.take_sublist k _)
    refine h1.imp_of_mem ?_
    intro a b ha hb hab
    rw [(mem_take_sorted ha).1, (mem_take_sorted hb).1] at hab
    exact hab
  · intro s
    refine ⟨((sortDesc (scoredPos q cs)).drop k).filter
      (fun p => p.1 = s) |>.map (fun p => p.2), ?_⟩
    have h1 : (scoredPos q cs).filter (fun p => p.1 = s)
        = ((sortDesc (scoredPos q cs)).take k).filter (fun p => p.1 = s)
          ++ ((sortDesc (scoredPos q cs)).drop k).filter (fun p => p.1 = s) := by
      rw [← List.filter_append, List.take_append_drop, sortDesc_filter]
    have h2 := congrArg (List.map (fun p : Nat × Chunk => p.2)) h1
    rw [List.map_append] at h2
    have h3 : ((scoredPos q cs).filter (fun p => p.1 = s)).map
        (fun p : Nat × Chunk => p.2)
        = (cs.filter (fun c => 0 < score q c)).filter (fun c => score q c = s) := by
      rw [scoredPos_eq, List.filter_map, List.map_map]
      exact List.map_id _
    have h4 : (((sortDesc (scoredPos q cs)).take k).filter
        (fun p => p.1 = s)).map (fun p : Nat × Chunk => p.2)
        = (simple_keyword_search q cs k).filter (fun c => score q c = s) := by
      rw [simple_keyword_search_eq, List.filter_map]
      congr 1
      refine List.filter_congr ?_
      intro p hp
      simp only [Function.comp]
      rw [(mem_take_sorted hp).1]
    rw [← h3, ← h4, h2]

/-- The "deep learning" chunk of the spec's end-to-end scenario. -/
def exA : Chunk := ⟨"deep learning image classification".toList, 1, "A".toList⟩

/-- The "gardening" chunk of the spec's end-to-end scenario. -/
def exB : Chunk := ⟨"unrelated gardening tips".toList, 1, "B".toList⟩

/-- Witness for C1: the "deep learning" chunk is in the ranker's output for
query "deep learning", and its score is strictly positive. -/
theorem score_eq_spec_and_output_positive_witness :
    exA ∈ simple_keyword_search "deep learning".toList [exA, exB] 1
    ∧ 0 < score "deep learning".toList exA :=
  ⟨by decide,
   (score_eq_spec_and_output_positive "deep learning".toList [exA, exB] 1 exA).2
     (by decide)⟩

/-- Witness for C2: the "deep learning" chunk is returned and is indeed an
element of the input pool. -/
theorem keyword_search_bounded_from_input_witness :
    exA ∈ simple_keyword_search "deep learning".toList [exA, exB] 1
    ∧ exA ∈ [exA, exB] :=
  ⟨by decide,
   (keyword_search_bounded_from_input "deep learning".toList [exA, exB] 1).2.1
     exA (by decide)⟩

/-! ### The degraded fallback path of `retrieve_from_multiple_pdfs` -/

theorem score_eq_zero_of {q : List Char} {c : Chunk}
    (h1 : (tokens (lowerL q)).toFinset ∩ (tokens (lowerL c.text)).toFinset = ∅)
    (h2 : ¬ lowerL q <:+: lowerL c.text) : score q c = 0 := by
  simp only [score]
  rw [if_neg h2, h1]
  simp

theorem keyword_search_eq_nil {q : List Char} {cs : List Chunk} {k : Nat}
    (h : ∀ c ∈ cs, score q c = 0) : simple_keyword_search q cs k = [] := by
  rw [simple_keyword_search_eq]
  have hz : scoredPos q cs = [] := by
    unfold scoredPos
    rw [List.filter_eq_nil_iff]
    intro p hp
    obtain ⟨c, hc, hcp⟩ := List.mem_map.mp hp
    cases hcp
    simp [h c hc]
  rw [hz]
  simp [sortDesc]

/-- C4 (amended): for every query and non-empty pooled chunk list, if no
chunk shares any token with the query and no chunk contains the lowercased
query as a substring, then the ranker returns an empty list and
`retrieve_from_multiple_pdfs` falls back to the first top_k chunks of the
pool in pooling order; when additionally top_k ≥ 1 the result is
non-empty. -/
theorem retrieve_fallback_first_topk (q : List Char)
    (extracted : List (List Chunk)) (k : Nat)
    (hne : extracted.flatten ≠ [])
    (h0 : ∀ c ∈ extracted.flatten,
      (tokens (lowerL q)).toFinset ∩ (tokens (lowerL c.text)).toFinset = ∅
      ∧ ¬ lowerL q <:+: lowerL c.text) :
    simple_keyword_search q extracted.flatten k = []
    ∧ retrieve_from_multiple_pdfs q extracted k = extracted.flatten.take k
    ∧ (1 ≤ k → retrieve_from_multiple_pdfs q extracted k ≠ []) := by
  have hs : simple_keyword_search q extracted.flatten k = [] :=
    keyword_search_eq_nil (fun c hc => score_eq_zero_of (h0 c hc).1 (h0 c hc).2)
  have hr : retrieve_from_multiple_pdfs q extracted k
      = extracted.flatten.take k := by
    unfold retrieve_from_multiple_pdfs
    rw [if_neg (by simpa [List.isEmpty_iff] using hne)]
    rw [hs]
    rfl
  refine ⟨hs, hr, ?_⟩
  intro hk hcontra
  rw [hr] at hcontra
  rcases List.take_eq_nil_iff.mp hcontra with h | h
  · omega
  · exact hne h

/-- C4 counterexample: with top_k = 0 the pool is non-empty and no chunk
shares a token or substring with the query, yet the retrieval result is
the empty list, contradicting the claim that the result is never an empty
sequence for a non-empty pool. -/
theorem retrieve_fallback_cex :
    ([[⟨"zzz".toList, 1, "a.pdf".toList⟩]] : List (List Chunk)).flatten ≠ []
    ∧ (∀ c ∈ ([[⟨"zzz".toList, 1, "a.pdf".toList⟩]] : List (List Chunk)).flatten,
        (tokens (lowerL "q".toList)).toFinset
            ∩ (tokens (lowerL c.text)).toFinset = ∅
        ∧ ¬ lowerL "q".toList <:+: lowerL c.text)
    ∧ retrieve_from_multiple_pdfs "q".toList
        [[⟨"zzz".toList, 1, "a.pdf".toList⟩]] 0 = [] :=
  ⟨by decide, by decide, by decide⟩

/-- Witness for C4 (amended): a concrete no-overlap pool where the
fallback returns the first chunk. -/
theorem retrieve_fallback_first_topk_witness :
    retrieve_from_multiple_pdfs "q".toList
        [[⟨"zzz".toList, 1, "a.pdf".toList⟩]] 6
      = [⟨"zzz".toList, 1, "a.pdf".toList⟩]
    ∧ retrieve_from_multiple_pdfs "q".toList
        [[⟨"zzz".toList, 1, "a.pdf".toList⟩]] 6 ≠ [] := by
  have h := retrieve_fallback_first_topk "q".toList
    [[⟨"zzz".toList, 1, "a.pdf".toList⟩]] 6 (by decide) (by decide)
  exact ⟨by rw [h.2.1]; decide, h.2.2 (by omega)⟩

/-! ### Monotonicity of the score under appending a shared token -/

theorem tokensAux_append_sep {sep : Char} (hsep : isSpace sep = true)
    (a b cur : List Char) :
    tokensAux (a ++ sep :: b) cur = tokensAux a cur ++ tokens b := by
  induction a generalizing cur with
  | nil =>
    by_cases hc : cur.isEmpty <;> simp [tokensAux, hsep, hc, tokens]
  | cons c cs ih =>
    by_cases hcw : isSpace c
    · by_cases hc : cur.isEmpty <;> simp [tokensAux, hcw, hc, ih]
    · simp [tokensAux, hcw, ih]

theorem tokens_append_sep {sep : Char} (hsep : isSpace sep = true)
    (a b : List Char) :
    tokens (a ++ sep :: b) = tokens a ++ tokens b :=
  tokensAux_append_sep hsep a b []

/-- C5 (amended): appending to the chunk's text one additional
whitespace-separated token that occurs in the query's token set (without
removing any existing text) cannot decrease the chunk's score. -/
theorem score_append_token_mono (q t w : List Char) (p : Nat)
    (src : List Char) (hw : lowerL w ∈ tokens (lowerL q)) :
    score q ⟨t, p, src⟩ ≤ score q ⟨t ++ ' ' :: w, p, src⟩ := by
  have hlow : lowerL (t ++ ' ' :: w) = lowerL t ++ ' ' :: lowerL w := by
    simp [lowerL, List.map_append, List.map_cons]
  have htok : tokens (lowerL (t ++ ' ' :: w))
      = tokens (lowerL t) ++ tokens (lowerL w) := by
    rw [hlow, tokens_append_sep (by decide)]
  have hcard : ((tokens (lowerL q)).toFinset ∩ (tokens (lowerL t)).toFinset).card
      ≤ ((tokens (lowerL q)).toFinset
          ∩ (tokens (lowerL (t ++ ' ' :: w))).toFinset).card := by
    refine Finset.card_le_card (Finset.inter_subset_inter (le_refl _) ?_)
    rw [htok, List.toFinset_append]
    exact Finset.subset_union_left
  have hinf : lowerL q <:+: lowerL t → lowerL q <:+: lowerL (t ++ ' ' :: w) := by
    intro h
    rw [hlow]
    exact h.trans ⟨[], ' ' :: lowerL w, by simp⟩
  simp only [score]
  by_cases h1 : lowerL q <:+: lowerL t
  · rw [if_pos h1, if_pos (hinf h1)]
    omega
  · rw [if_neg h1]
    split <;> omega

/-- C5 counterexample: inserting the query token "y" into the middle of
the chunk text "x y z" (a one-token insertion that removes nothing) breaks
the exact-phrase bonus and strictly decreases the score, from 13 to 3. -/
theorem score_insert_token_cex :
    lowerL "y".toList ∈ tokens (lowerL "x y z".toList)
    ∧ "x y y z".toList = "x y ".toList ++ "y".toList ++ ' ' :: "z".toList
    ∧ "x y z".toList = "x y ".toList ++ "z".toList
    ∧ score "x y z".toList ⟨"x y y z".toList, 1, "A".toList⟩
        < score "x y z".toList ⟨"x y z".toList, 1, "A".toList⟩ :=
  ⟨by decide, by decide, by decide, by decide⟩

/-- Witness for C5 (amended): appending "y" to the chunk text "x" under
query "x y" does not decrease the score. -/
theorem score_append_token_mono_witness :
    lowerL "y".toList ∈ tokens (lowerL "x y".toList)
    ∧ score "x y".toList ⟨"x".toList, 1, "A".toList⟩
        ≤ score "x y".toList ⟨"x y".toList, 1, "A".toList⟩ :=
  ⟨by decide,
   score_append_token_mono "x y".toList "x".toList "y".toList 1 "A".toList
     (by decide)⟩

/-! ### Exact-phrase dominance -/

/-- C6 (amended): provided the query contains at least one token, a chunk
whose full text equals the query up to lowercasing scores strictly higher
than any chunk sharing zero tokens with the query. -/
theorem exact_match_beats_zero_overlap (q : List Char) (c1 c2 : Chunk)
    (hq : tokens (lowerL q) ≠ [])
    (h1 : lowerL c1.text = lowerL q)
    (h2 : (tokens (lowerL q)).toFinset ∩ (tokens (lowerL c2.text)).toFinset = ∅) :
    score q c2 < score q c1 := by
  obtain ⟨x, hx⟩ := List.exists_mem_of_ne_nil _ hq
  have hpos : 0 < (tokens (lowerL q)).toFinset.card :=
    Finset.card_pos.mpr ⟨x, List.mem_toFinset.mpr hx⟩
  have hc1 : score q c1 = (tokens (lowerL q)).toFinset.card + 10 := by
    simp only [score]
    rw [h1, if_pos (List.infix_refl _), Finset.inter_self]
  have hc2 : score q c2 ≤ 10 := by
    simp only [score]
    rw [h2]
    split <;> simp
  omega

/-- C6 counterexample: with the empty query, the empty-text chunk equals
the query up to lowercasing and the chunk "a" shares zero tokens with the
query, yet both score exactly 10 (the empty string is a substring of
everything), so the strict inequality fails. -/
theorem exact_match_cex :
    lowerL (Chunk.text ⟨"".toList, 1, "A".toList⟩) = lowerL "".toList
    ∧ (tokens (lowerL "".toList)).toFinset
        ∩ (tokens (lowerL (Chunk.text ⟨"a".toList, 1, "B".toList⟩))).toFinset = ∅
    ∧ ¬ (score "".toList ⟨"a".toList, 1, "B".toList⟩
          < score "".toList ⟨"".toList, 1, "A".toList⟩) :=
  ⟨by decide, by decide, by decide⟩

/-- Witness for C6 (amended): query "x", exact-match chunk "x" versus the
zero-overlap chunk "zz". -/
theorem exact_match_beats_zero_overlap_witness :
    tokens (lowerL "x".toList) ≠ []
    ∧ score "x".toList ⟨"zz".toList, 1, "B".toList⟩
        < score "x".toList ⟨"x".toList, 1, "A".toList⟩ :=
  ⟨by decide,
   exact_match_beats_zero_overlap "x".toList ⟨"x".toList, 1, "A".toList⟩
     ⟨"zz".toList, 1, "B".toList⟩ (by decide) (by decide) (by decide)⟩

/-! ### Reference extraction (paper_search.py)

`extract_references_from_pdf_text` lowercases the concatenated page text,
searches for a references-section header with one of two regular
expressions, and then collects entries matching
`([A-Z][^.]+\.\s*\(\d{4}\)[^.]+\.)` inside the matched group, capped at
10.  Both regexes are deterministic (each greedy/lazy repetition is
followed by a character its class excludes), so they are embedded as
direct recursive matchers. -/

/-- The regex class `[A-Z]`. -/
def isUpperAZ (c : Char) : Bool := 'A' ≤ c && c ≤ 'Z'

/-- Matcher for `[A-Z][^.]+\.\s*\(\d{4}\)[^.]+\.` anchored at the start of
`l`; on success returns the matched characters and the remaining input.
Each `[^.]+` is a maximal non-dot run followed by a literal dot, and
`\s*` is a maximal whitespace run followed by `(` (no backtracking can
succeed otherwise, so maximal runs are faithful). -/
def matchEntryAt : List Char → Option (List Char × List Char)
  | [] => none
  | c :: rest =>
    if isUpperAZ c then
      match rest.dropWhile (fun x => x != '.') with
      | '.' :: rest2 =>
        if (rest.takeWhile (fun x => x != '.')).isEmpty then none
        else
          match rest2.dropWhile isSpace with
          | '(' :: d1 :: d2 :: d3 :: d4 :: ')' :: rest3 =>
            if d1.isDigit && d2.isDigit && d3.isDigit && d4.isDigit then
              match rest3.dropWhile (fun x => x != '.') with
              | '.' :: rest4 =>
                if (rest3.takeWhile (fun x => x != '.')).isEmpty then none
                else
                  some (c :: (rest.takeWhile (fun x => x != '.') ++ '.' ::
                    (rest2.takeWhile isSpace ++ '(' :: d1 :: d2 :: d3 :: d4 :: ')' ::
                      (rest3.takeWhile (fun x => x != '.') ++ ['.']))), rest4)
              | _ => none
            else none
          | _ => none
      | _ => none
    else none

/-- Python `re.findall` of the entry pattern: scan left to right, taking
leftmost non-overlapping matches (fuelled by the input length; every
step consumes at least one character, so the fuel never runs out). -/
def findEntriesF : Nat → List Char → List (List Char)
  | 0, _ => []
  | _ + 1, [] => []
  | n + 1, c :: cs =>
    match matchEntryAt (c :: cs) with
    | some (m, rest) => m :: findEntriesF n rest
    | none => findEntriesF n cs

/-- All non-overlapping entry-pattern matches in `l`. -/
def findEntries (l : List Char) : List (List Char) := findEntriesF l.length l

/-- The shape guaranteed by the entry pattern: starts with a capital
letter, contains a parenthesized four-digit year, and ends with a
period. -/
def entryShaped (e : List Char) : Prop :=
  (∃ c rest, e = c :: rest ∧ isUpperAZ c = true)
  ∧ (∃ d1 d2 d3 d4 : Char, d1.isDigit ∧ d2.isDigit ∧ d3.isDigit ∧ d4.isDigit
      ∧ ['(', d1, d2, d3, d4, ')'] <:+: e)
  ∧ (∃ front : List Char, e = front ++ ['.'])

/-- Header keywords of the first section regex. -/
def refKw1 : List (List Char) :=
  ["references".toList, "bibliography".toList, "works cited".toList]

/-- Header keywords of the second section regex. -/
def refKw2 : List (List Char) := ["references".toList, "bibliography".toList]

/-- The terminator `\n\n\n` of the first section regex. -/
def nl3 : List Char := ['\n', '\n', '\n']

/-- Try the alternation of header keywords at the current position,
returning the remaining input after the first keyword that matches. -/
def kwMatch (kws : List (List Char)) (l : List Char) : Option (List Char) :=
  match kws with
  | [] => none
  | k :: rest => if k.isPrefixOf l then some (l.drop k.length) else kwMatch rest l

/-- The `\s*\n` part after the keyword: the maximal whitespace run must
contain a newline; the group starts right after the last newline of the
run (greedy `\s*` backtracks to the last newline). -/
def afterHeader (r : List Char) : Option (List Char) :=
  let w := r.takeWhile isSpace
  if w.contains '\n' then
    some ((w.reverse.takeWhile (fun c => c != '\n')).reverse ++ r.dropWhile isSpace)
  else none

/-- The lazy group `(.*?)(?:term|\Z)`: everything up to the first
occurrence of `term`, or the whole input when `term` never occurs. -/
def cutAt (term : List Char) : List Char → List Char
  | [] => []
  | c :: cs => if term.isPrefixOf (c :: cs) then [] else c :: cutAt term cs

/-- Python `re.search` for a section regex: the leftmost position at which a
keyword followed by `\s*\n` matches, yielding group 1. -/
def searchSection (kws : List (List Char)) (term : List Char) :
    List Char → Option (List Char)
  | [] => none
  | c :: cs =>
    match kwMatch kws (c :: cs) with
    | some r =>
      match afterHeader r with
      | some span0 => some (cutAt term span0)
      | none => searchSection kws term cs
    | none => searchSection kws term cs

/-- The pattern loop of `extract_references_from_pdf_text` (lines 18-33):
try the first section regex, then the second, stopping at the first that
matches. -/
def refSpan (ft : List Char) : Option (List Char) :=
  match searchSection refKw1 nl3 ft with
  | some span => some span
  | none => searchSection refKw2 "appendix".toList ft

/-- Model of `extract_references_from_pdf_text` (paper_search.py lines 6-38),
parameterised by the concatenated page text (the PDF reading is I/O):
lowercase, find the references section, and return the first 10 entry
matches inside it (an unmatched section yields `[]`). -/
def extract_references_from_pdf_text (full_text : List Char) : List (List Char) :=
  match refSpan (lowerL full_text) with
  | some span => (findEntries span).take 10
  | none => []

theorem matchEntryAt_some {l m rest : List Char}
    (h : matchEntryAt l = some (m, rest)) :
    l = m ++ rest ∧ entryShaped m := by
  match l with
  | [] => simp [matchEntryAt] at h
  | c :: cs =>
    rw [matchEntryAt] at h
    by_cases hu : isUpperAZ c
    swap
    · simp [hu] at h
    rw [if_pos hu] at h
    split at h
    · rename_i rest2 h1
      split at h
      · simp at h
      · rename_i hne1
        split at h
        · rename_i d1 d2 d3 d4 rest3 h2
          split at h
          · rename_i hdig
            split at h
            · rename_i rest4 h3
              split at h
              · simp at h
              · rename_i hne3
                obtain ⟨hm, hrest⟩ := Prod.mk.injEq .. ▸ Option.some.inj h
                obtain ⟨hd1, hd2, hd3, hd4⟩ :
                    d1.isDigit ∧ d2.isDigit ∧ d3.isDigit ∧ d4.isDigit := by
                  simpa [Bool.and_eq_true, and_assoc] using hdig
                subst hrest
                constructor
                · rw [← hm]
                  have e1 : cs.takeWhile (fun x => x != '.')
                      ++ ('.' :: rest2) = cs := by
                    rw [← h1, List.takeWhile_append_dropWhile]
                  have e2 : rest2.takeWhile isSpace
                      ++ ('(' :: d1 :: d2 :: d3 :: d4 :: ')' :: rest3) = rest2 := by
                    rw [← h2, List.takeWhile_append_dropWhile]
                  have e3 : rest3.takeWhile (fun x => x != '.')
                      ++ ('.' :: rest4) = rest3 := by
                    rw [← h3, List.takeWhile_append_dropWhile]
                  simp only [List.cons_append, List.append_assoc,
                    List.cons_append, List.nil_append]
                  rw [e3, e2, e1]
                · rw [← hm]
                  refine ⟨⟨c, _, rfl, hu⟩,
                    ⟨d1, d2, d3, d4, hd1, hd2, hd3, hd4, ?_⟩, ?_⟩
                  · refine ⟨c :: (cs.takeWhile (fun x => x != '.') ++ '.' ::
                      rest2.takeWhile isSpace),
                      rest3.takeWhile (fun x => x != '.') ++ ['.'], ?_⟩
                    simp
                  · refine ⟨c :: (cs.takeWhile (fun x => x != '.') ++ '.' ::
                      (rest2.takeWhile isSpace
                        ++ '(' :: d1 :: d2 :: d3 :: d4 :: ')' ::
                          rest3.takeWhile (fun x => x != '.'))), ?_⟩
                    simp
            · simp at h
          · simp at h
        · simp at h
    · simp at h

theorem findEntriesF_sound (fuel : Nat) :
    ∀ (l : List Char), ∀ e ∈ findEntriesF fuel l, entryShaped e ∧ e <:+: l := by
  induction fuel with
  | zero => intro l e he; simp [findEntriesF] at he
  | succ n ih =>
    intro l e he
    match l with
    | [] => simp [findEntriesF] at he
    | c :: cs =>
      rw [findEntriesF] at he
      cases hm : matchEntryAt (c :: cs) with
      | none =>
        rw [hm] at he
        have h1 := ih cs e he
        exact ⟨h1.1, h1.2.trans ⟨[c], [], by simp⟩⟩
      | some p =>
        obtain ⟨m, rest⟩ := p
        rw [hm] at he
        have h2 := matchEntryAt_some hm
        rcases List.mem_cons.mp he with rfl | he'
        · exact ⟨h2.2, ⟨[], rest, by simpa using h2.1.symm⟩⟩
        · have h3 := ih rest e he'
          exact ⟨h3.1, h3.2.trans ⟨m, [], by rw [h2.1]; simp⟩⟩

/-- C7: for every document text in which a references/bibliography section
is matched, `extract_references_from_pdf_text` returns exactly the first
10 entry-pattern matches inside the matched span; hence it returns at most
10 entries, and every returned entry lies within the matched span and has
the heuristic shape (capital start, parenthesized four-digit year,
trailing period). -/
theorem extract_references_sound (full_text span : List Char)
    (h : refSpan (lowerL full_text) = some span) :
    extract_references_from_pdf_text full_text = (findEntries span).take 10
    ∧ (extract_references_from_pdf_text full_text).length ≤ 10
    ∧ ∀ e ∈ extract_references_from_pdf_text full_text,
        entryShaped e ∧ e <:+: span := by
  have he : extract_references_from_pdf_text full_text
      = (findEntries span).take 10 := by
    unfold extract_references_from_pdf_text
    rw [h]
  refine ⟨he, ?_, ?_⟩
  · rw [he, List.length_take]
    exact Nat.min_le_left _ _
  · intro e hee
    rw [he] at hee
    exact findEntriesF_sound span.length span e (List.mem_of_mem_take hee)

/-- Witness for C7: a concrete text whose references section is matched;
the extractor output is empty (trivially within the 10-entry bound and the
span). -/
theorem extract_references_sound_witness :
    refSpan (lowerL "References\nAbc. (1999) def.".toList)
        = some "abc. (1999) def.".toList
    ∧ (extract_references_from_pdf_text
        "References\nAbc. (1999) def.".toList).length ≤ 10 :=
  ⟨by decide,
   (extract_references_sound "References\nAbc. (1999) def.".toList
     "abc. (1999) def.".toList (by decide)).2.1⟩

/-! ### User persistence (database.py)

The `users` table has `UNIQUE` constraints on `google_id`, `email` and
`username` (lines 21-32); `create_user` (lines 68-86) runs a single
`INSERT`, returns the new row on success, and returns `None` on
`sqlite3.IntegrityError`, in which case nothing was committed. -/

/-- A row of the `users` table. -/
structure UserRec where
  id : Nat
  google_id : String
  email : String
  name : String
  username : String
  organization : String
  research_interests : String
deriving DecidableEq

/-- The `users` table plus its `AUTOINCREMENT` counter. -/
structure UsersDB where
  users : List UserRec
  next_id : Nat
deriving DecidableEq

/-- Model of `create_user` (database.py lines 68-86): insert a row unless one of
the three unique columns collides, in which case return `None` with the
table unchanged. -/
def create_user (db : UsersDB) (google_id email name username
    organization research_interests : String) : Option UserRec × UsersDB :=
  if db.users.any (fun u => u.google_id == google_id || u.email == email
      || u.username == username) then
    (none, db)
  else
    let u : UserRec :=
      { id := db.next_id, google_id := google_id, email := email
        name := name, username := username, organization := organization
        research_interests := research_interests }
    (some u, { users := db.users ++ [u], next_id := db.next_id + 1 })

/-- C8: for every stored user set and every create-user request whose
external identity id (or email or username) already exists, `create_user`
returns `none` (a "not created" outcome, not an exception) and the stored
user records — in particular the pre-existing record — are unchanged. -/
theorem create_user_duplicate_unchanged (db : UsersDB)
    (gid em nm un org ri : String)
    (h : ∃ u ∈ db.users, u.google_id = gid ∨ u.email = em ∨ u.username = un) :
    (create_user db gid em nm un org ri).1 = none
    ∧ (create_user db gid em nm un org ri).2 = db := by
  have hany : db.users.any (fun u => u.google_id == gid || u.email == em
      || u.username == un) = true := by
    obtain ⟨u, hu, hcase⟩ := h
    rw [List.any_eq_true]
    refine ⟨u, hu, ?_⟩
    rcases hcase with h | h | h <;> simp [h]
  simp only [create_user, hany]
  exact ⟨rfl, rfl⟩

/-- Witness for C8: creating a second user with an already-present
google_id returns `none` and leaves the one-row table unchanged. -/
theorem create_user_duplicate_unchanged_witness :
    (create_user ⟨[⟨1, "g1", "a@b.c", "A", "ua", "Org", ""⟩], 2⟩
        "g1" "x@y.z" "B" "ub" "Org2" "").1 = none
    ∧ (create_user ⟨[⟨1, "g1", "a@b.c", "A", "ua", "Org", ""⟩], 2⟩
        "g1" "x@y.z" "B" "ub" "Org2" "").2
      = ⟨[⟨1, "g1", "a@b.c", "A", "ua", "Org", ""⟩], 2⟩ :=
  create_user_duplicate_unchanged ⟨[⟨1, "g1", "a@b.c", "A", "ua", "Org", ""⟩], 2⟩
    "g1" "x@y.z" "B" "ub" "Org2" ""
    ⟨⟨1, "g1", "a@b.c", "A", "ua", "Org", ""⟩, by decide, Or.inl rfl⟩

/-! ### The empty-pool sentinel of `retrieve_from_multiple_pdfs` -/

/-- C9: for every query and every PDF list whose extraction yields an
empty pooled chunk list, `retrieve_from_multiple_pdfs` returns exactly one
sentinel chunk with text "No document content available.", page number 0
and source "System" — so at the public retrieval interface a chunk with
page number 0, outside the documented page ≥ 1 range, can be returned. -/
theorem retrieve_empty_pool_sentinel (q : List Char)
    (extracted : List (List Chunk)) (k : Nat)
    (h : extracted.flatten = []) :
    retrieve_from_multiple_pdfs q extracted k = [sentinelChunk]
    ∧ sentinelChunk.text = "No document content available.".toList
    ∧ sentinelChunk.page = 0
    ∧ sentinelChunk.source = "System".toList := by
  refine ⟨?_, rfl, rfl, rfl⟩
  simp [retrieve_from_multiple_pdfs, h]

/-- Witness for C9: an empty PDF list yields the sentinel. -/
theorem retrieve_empty_pool_sentinel_witness :
    retrieve_from_multiple_pdfs "q".toList [] 6 = [sentinelChunk]
    ∧ sentinelChunk.page = 0 :=
  ⟨(retrieve_empty_pool_sentinel "q".toList [] 6 rfl).1,
   (retrieve_empty_pool_sentinel "q".toList [] 6 rfl).2.2.1⟩

/-! ### PDF ingestion (ingest.py) -/

/-- A page record produced by `load_pdf` in ingest.py:
`{"page": i + 1, "text": text}`. -/
structure PageRec where
  page : Nat
  text : List Char
deriving DecidableEq, Inhabited

/-- The page loop of `load_pdf` (ingest.py lines 14-20), over the per-page
extraction results (`page.extract_text() or ""`): keep pages whose text
has a non-whitespace character (`text.strip()` truthiness), numbering from
`i + 1`. -/
def load_pdf_from (i : Nat) : List (List Char) → List PageRec
  | [] => []
  | t :: ts =>
    if t.any (fun c => !isSpace c) then ⟨i + 1, t⟩ :: load_pdf_from (i + 1) ts
    else load_pdf_from (i + 1) ts

/-- Model of `load_pdf` (ingest.py lines 6-25) on the raw page texts. -/
def load_pdf (raws : List (List Char)) : List PageRec := load_pdf_from 0 raws

/-- Python `str.strip()`. -/
def stripL (l : List Char) : List Char :=
  ((l.dropWhile isSpace).reverse.dropWhile isSpace).reverse

/-- Decimal digits of a page number, as in the f-string `f"Page {n}..."`. -/
def natChars (n : Nat) : List Char := (toString n).toList

/-- Model of `extract_document_text` (ingest.py lines 27-34): concatenate
`f"Page {page}:\n{text}\n\n"` for every page and strip the result. -/
def extract_document_text (pages : List PageRec) : List Char :=
  stripL (pages.foldl (fun full_text p =>
    full_text ++ ("Page ".toList ++ natChars p.page ++ ":\n".toList
      ++ p.text ++ "\n\n".toList)) [])

/-- Model of `ingest_pdf` (ingest.py lines 36-73), parameterised by the raw page
texts and the LLM summariser (`none` models a raised exception, which the
code replaces with the preview fallback).  Raising `ValueError` is
modelled as `Except.error`. -/
def ingest_pdf (raws : List (List Char)) (pdf_name : List Char)
    (summarize : List Char → Option (List Char)) :
    Except (List Char) (Nat × Nat × List Char × List Char) :=
  let pages := load_pdf raws
  if pages.isEmpty then
    Except.error ("No text could be extracted from ".toList ++ pdf_name)
  else
    let full_text := extract_document_text pages
    let doc_summary :=
      match summarize full_text with
      | some s => s
      | none =>
        "Document: ".toList ++ pdf_name ++ ". Preview: ".toList
          ++ (pages.headD default).text.take 300 ++ "...".toList
    let chunks_count := pages.length
    Except.ok (chunks_count, pages.length, doc_summary, pdf_name)

theorem load_pdf_from_length (i : Nat) (raws : List (List Char)) :
    (load_pdf_from i raws).length
      = (raws.filter (fun t => t.any (fun c => !isSpace c))).length := by
  induction raws generalizing i with
  | nil => rfl
  | cons t ts ih =>
    by_cases ht : t.any (fun c => !isSpace c) <;>
      simp [load_pdf_from, List.filter_cons, ht, ih]

/-- C10: a successful ingestion returns a chunk count equal to its page
count — both are the number of non-blank pages, so each non-blank page is
exactly one chunk and any PdfRecord written from this tuple has equal
chunks and pages fields — and when no page yields extractable text the
operation raises an error rather than returning. -/
theorem ingest_counts_eq_and_error_on_empty (raws : List (List Char))
    (nm : List Char) (f : List Char → Option (List Char)) :
    (∀ r, ingest_pdf raws nm f = Except.ok r →
      r.1 = r.2.1
      ∧ r.1 = (raws.filter (fun t => t.any (fun c => !isSpace c))).length)
    ∧ ((∀ t ∈ raws, ¬ t.any (fun c => !isSpace c) = true) →
        ∃ msg, ingest_pdf raws nm f = Except.error msg) := by
  constructor
  · intro r hr
    simp only [ingest_pdf] at hr
    by_cases hp : (load_pdf raws).isEmpty
    · rw [if_pos hp] at hr
      exact absurd hr (by simp)
    · rw [if_neg hp] at hr
      have h2 := Except.ok.inj hr
      rw [← h2]
      refine ⟨rfl, ?_⟩
      show (load_pdf raws).length = _
      exact load_pdf_from_length 0 raws
  · intro hblank
    have hz : load_pdf raws = [] := by
      have h1 : raws.filter (fun t => t.any (fun c => !isSpace c)) = [] :=
        List.filter_eq_nil_iff.mpr hblank
      have h2 := load_pdf_from_length 0 raws
      rw [h1] at h2
      exact List.length_eq_zero.mp h2
    refine ⟨"No text could be extracted from ".toList ++ nm, ?_⟩
    simp [ingest_pdf, hz]

/-- Witness for C10: a one-page document ingests into equal counts, and an
all-blank document errors. -/
theorem ingest_counts_eq_and_error_on_empty_witness :
    ((1, 1, "s".toList, "doc".toList) : Nat × Nat × List Char × List Char).1
      = (1, 1, "s".toList, "doc".toList).2.1
    ∧ ∃ msg, ingest_pdf [" ".toList] "doc".toList (fun _ => none)
        = Except.error msg :=
  ⟨((ingest_counts_eq_and_error_on_empty ["hi".toList] "doc".toList
      (fun _ => some "s".toList)).1 (1, 1, "s".toList, "doc".toList)
      (by rfl)).1,
   (ingest_counts_eq_and_error_on_empty [" ".toList] "doc".toList
      (fun _ => none)).2 (by decide)⟩

end Adhayayan


